import Mathlib

/-!
Verification development for the КП (commercial proposal) calculator:
a shallow embedding of `src/calculator/pricing.py` and
`src/matching/product_matcher.py` over `ℚ`, together with proofs about the
pricing optimizer and the matching pipeline.

Numbers are modelled as rationals.  Python's `round(v, 2)` performs decimal
rounding to two places with ties going to the even last digit (banker's
rounding, which is what CPython does on the exactly representable binary
values that appear in the claims); it is modelled by `round2` below.
-/

set_option allowUnsafeReducibility true in
attribute [semireducible] Rat.add Rat.mul Rat.div Rat.sub Rat.neg Rat.inv

namespace KP

/-- Round a rational to the nearest integer, ties to even
(the rounding used by Python's builtin `round`). -/
def roundHE (x : ℚ) : ℤ :=
  if x - ⌊x⌋ < 1/2 then ⌊x⌋
  else if (1:ℚ)/2 < x - ⌊x⌋ then ⌊x⌋ + 1
  else if ⌊x⌋ % 2 = 0 then ⌊x⌋ else ⌊x⌋ + 1

/-- Python's `round(x, 2)`: decimal rounding to two places, ties to even. -/
def round2 (x : ℚ) : ℚ := (roundHE (100 * x) : ℚ) / 100

end KP

namespace KP

theorem roundHE_le_add_half (x : ℚ) : (roundHE x : ℚ) ≤ x + 1/2 := by
  have hfl : (⌊x⌋ : ℚ) ≤ x := Int.floor_le x
  unfold roundHE
  split
  · linarith
  · split
    · rename_i h1 h2
      push_cast
      linarith
    · split
      · linarith
      · rename_i h1 h2 h3
        have : x - (⌊x⌋:ℚ) = 1/2 := le_antisymm (not_lt.mp h2) (not_lt.mp h1)
        push_cast
        linarith

theorem sub_half_le_roundHE (x : ℚ) : x - 1/2 ≤ (roundHE x : ℚ) := by
  have hfl : x < (⌊x⌋ : ℚ) + 1 := Int.lt_floor_add_one x
  unfold roundHE
  split
  · rename_i h1
    linarith
  · split
    · push_cast
      linarith
    · split
      · rename_i h1 h2 h3
        have : x - (⌊x⌋:ℚ) = 1/2 := le_antisymm (not_lt.mp h2) (not_lt.mp h1)
        linarith
      · push_cast
        linarith

theorem roundHE_le_int {x : ℚ} {n : ℤ} (h : x ≤ (n:ℚ)) : roundHE x ≤ n := by
  have hfn : ⌊x⌋ ≤ n := by
    have := Int.floor_mono h
    simpa using this
  have hfl : (⌊x⌋ : ℚ) ≤ x := Int.floor_le x
  unfold roundHE
  split
  · exact hfn
  · split
    · rename_i h1 h2
      have hlt : (⌊x⌋ : ℚ) + 1/2 ≤ x := by linarith
      have hq : (⌊x⌋ : ℚ) < n := by linarith
      have : ⌊x⌋ < n := by exact_mod_cast hq
      omega
    · split
      · exact hfn
      · rename_i h1 h2 h3
        have htie : x - (⌊x⌋:ℚ) = 1/2 := le_antisymm (not_lt.mp h2) (not_lt.mp h1)
        have hq : (⌊x⌋ : ℚ) < n := by linarith
        have : ⌊x⌋ < n := by exact_mod_cast hq
        omega

theorem int_le_roundHE {x : ℚ} {n : ℤ} (h : (n:ℚ) ≤ x) : n ≤ roundHE x := by
  have hfn : n ≤ ⌊x⌋ := Int.le_floor.mpr h
  unfold roundHE
  split
  · exact hfn
  · split
    · omega
    · split
      · exact hfn
      · omega

theorem round2_le_add (x : ℚ) : round2 x ≤ x + 1/200 := by
  have h := roundHE_le_add_half (100 * x)
  unfold round2
  linarith

theorem sub_le_round2 (x : ℚ) : x - 1/200 ≤ round2 x := by
  have h := sub_half_le_roundHE (100 * x)
  unfold round2
  linarith

/-- The per-line undercut: rounding `c - 0.01` to two decimals always lands
strictly below `c`. -/
theorem round2_undercut (c : ℚ) : round2 (c - 1/100) < c := by
  have h := round2_le_add (c - 1/100)
  linarith

theorem round2_nonneg {x : ℚ} (h : 0 ≤ x) : 0 ≤ round2 x := by
  have h0 : ((0:ℤ):ℚ) ≤ 100 * x := by push_cast; linarith
  have := int_le_roundHE h0
  unfold round2
  have : ((0:ℤ):ℚ) ≤ (roundHE (100 * x) : ℚ) := by exact_mod_cast this
  push_cast at this
  linarith

/-- If `x` is at least the two-decimal grid point `k/100`, so is its rounding. -/
theorem intdiv_le_round2 {k : ℤ} {x : ℚ} (h : (k:ℚ)/100 ≤ x) :
    (k:ℚ)/100 ≤ round2 x := by
  have h0 : (k:ℚ) ≤ 100 * x := by linarith
  have := int_le_roundHE h0
  unfold round2
  have : (k : ℚ) ≤ (roundHE (100 * x) : ℚ) := by exact_mod_cast this
  linarith

/-- If `x` is at most the two-decimal grid point `k/100`, so is its rounding. -/
theorem round2_le_intdiv {k : ℤ} {x : ℚ} (h : x ≤ (k:ℚ)/100) :
    round2 x ≤ (k:ℚ)/100 := by
  have h0 : 100 * x ≤ (k:ℚ) := by linarith
  have := roundHE_le_int h0
  unfold round2
  have : (roundHE (100 * x) : ℚ) ≤ (k : ℚ) := by exact_mod_cast this
  linarith

/-- Any `round2` value is a two-decimal grid point; rounding a value that is
at least such a grid point stays at least the grid point. -/
theorem round2_le_round2_of_ge {y x : ℚ} (h : round2 y ≤ x) :
    round2 y ≤ round2 x := by
  unfold round2 at *
  exact intdiv_le_round2 h

end KP

namespace KP

/-- One row of the pricing DataFrame (`calculate_prices` input): columns
`Цена конкурента` (`comp`), `Себестоимость` (`cost`), `Кол-во` (`qty`) and
`Наша цена` (`price`, overwritten by step 1). -/
structure PLine where
  comp : ℚ
  cost : ℚ
  qty : ℚ
  price : ℚ
deriving DecidableEq

/-- Step 1 of `calculate_prices` (pricing.py lines 44-52): competitor price
minus 0.01 when a competitor exists, otherwise cost + 30 %, otherwise 0. -/
def initPrice (comp cost : ℚ) : ℚ :=
  if comp ≤ 0 then (if 0 < cost then round2 (cost * (13/10)) else 0)
  else round2 (comp - 1/100)

/-- Apply step 1 to one line (the loop body of pricing.py lines 44-52). -/
def step1 (x : PLine) : PLine := { x with price := initPrice x.comp x.cost }

/-- Write a new `Наша цена` at a DataFrame index (`result.at[idx, ...] = v`). -/
def updPrice : List PLine → ℕ → ℚ → List PLine
  | [], _, _ => []
  | x :: xs, 0, v => { x with price := v } :: xs
  | x :: xs, n+1, v => x :: updPrice xs n v

/-- The rows with `Цена конкурента > 0` paired with their DataFrame index
(the `has_comp` mask of pricing.py line 55). -/
def compIdxAux : ℕ → List PLine → List (ℕ × PLine)
  | _, [] => []
  | i, x :: xs =>
    if 0 < x.comp then (i, x) :: compIdxAux (i+1) xs else compIdxAux (i+1) xs

def compIdx (l : List PLine) : List (ℕ × PLine) := compIdxAux 0 l

/-- `(comp_rows['Цена конкурента'] * comp_rows['Кол-во']).sum()`. -/
def sumCompQty (c : List (ℕ × PLine)) : ℚ :=
  (c.map (fun p => p.2.comp * p.2.qty)).sum

/-- `(comp_rows['Наша цена'] * comp_rows['Кол-во']).sum()`. -/
def sumPriceQty (c : List (ℕ × PLine)) : ℚ :=
  (c.map (fun p => p.2.price * p.2.qty)).sum

/-- `target_total = competitor_total * (1 - target_discount_percent / 100)`. -/
def targetTotal (t : ℚ) (c : List (ℕ × PLine)) : ℚ :=
  sumCompQty c * (1 - t / 100)

/-- Entry of the `margins` list built in pricing.py lines 66-87. -/
structure MarginItem where
  idx : ℕ
  margin_pct : ℚ
  qty : ℚ
  max_reduction_total : ℚ
deriving DecidableEq

/-- pricing.py lines 66-85: margin data for every competitor row; ineligible
rows (price, cost or qty not positive) get `margin_pct = -999` and no
reduction headroom. -/
def mkMargins (c : List (ℕ × PLine)) : List MarginItem :=
  c.map (fun p =>
    let x := p.2
    if 0 < x.price ∧ 0 < x.cost ∧ 0 < x.qty then
      { idx := p.1, margin_pct := (x.price - x.cost) / x.price, qty := x.qty,
        max_reduction_total := max 0 (x.price - x.cost) * x.qty }
    else
      { idx := p.1, margin_pct := -999, qty := x.qty, max_reduction_total := 0 })

/-- Stable insertion step for the ascending sort by `margin_pct`. -/
def insAsc (a : MarginItem) : List MarginItem → List MarginItem
  | [] => [a]
  | b :: bs => if a.margin_pct ≤ b.margin_pct then a :: b :: bs else b :: insAsc a bs

/-- `margins.sort(key=margin_pct)` — Python's stable ascending sort,
modelled by stable insertion sort. -/
def sortAsc : List MarginItem → List MarginItem
  | [] => []
  | a :: as' => insAsc a (sortAsc as')

/-- The greedy redistribution loop of pricing.py lines 90-108: walk the
margin-sorted rows, cut each price towards its cost floor until the
remaining delta is ≤ 0.01 or headroom runs out. -/
def redistribute : List PLine → ℚ → List MarginItem → List PLine
  | s, _, [] => s
  | s, rem, item :: rest =>
    if rem ≤ 1/100 then s
    else if item.max_reduction_total ≤ 0 then redistribute s rem rest
    else
      let reduction := min rem item.max_reduction_total
      let price_reduction := if 0 < item.qty then reduction / item.qty else 0
      match s.get? item.idx with
      | none => redistribute s rem rest
      | some x =>
        let new_price := round2 (max (x.price - price_reduction) x.cost)
        let s' := updPrice s item.idx new_price
        let actual := (x.price - new_price) * item.qty
        redistribute s' (rem - actual) rest

/-- Step 5 of pricing.py (lines 115-120): force `Наша цена` strictly below
the competitor price wherever a competitor exists. -/
def step5 (m : List PLine) : List PLine :=
  m.map (fun x =>
    if 0 < x.comp ∧ x.comp ≤ x.price then { x with price := round2 (x.comp - 1/100) }
    else x)

/-- Entry of the `correction_candidates` list of pricing.py lines 129-138. -/
structure CorrItem where
  idx : ℕ
  margin : ℚ
  qty : ℚ
  price : ℚ
  cost : ℚ
  compP : ℚ
deriving DecidableEq

/-- pricing.py lines 129-138: rows of the competitor subset with positive
quantity and price above cost, with a snapshot of their current fields. -/
def mkCorr (c : List (ℕ × PLine)) : List CorrItem :=
  c.filterMap (fun p =>
    let x := p.2
    if 0 < x.qty ∧ x.cost < x.price then
      some { idx := p.1, margin := (x.price - x.cost) / x.price, qty := x.qty,
             price := x.price, cost := x.cost, compP := x.comp }
    else none)

/-- Stable insertion step for the descending sort by `margin`. -/
def insDesc (a : CorrItem) : List CorrItem → List CorrItem
  | [] => [a]
  | b :: bs => if b.margin ≤ a.margin then a :: b :: bs else b :: insDesc a bs

/-- `correction_candidates.sort(key=margin, reverse=True)` — stable
descending sort, modelled by stable insertion sort. -/
def sortDesc : List CorrItem → List CorrItem
  | [] => []
  | a :: as' => insDesc a (sortDesc as')

/-- The new price computed for one correction candidate (pricing.py lines
144-151): round towards the target, clamp to the cost floor from below and
to `competitor - 0.01` from above. -/
def corrValue (item : CorrItem) (rc : ℚ) : ℚ :=
  let per_unit := rc / item.qty
  let new1 := round2 (item.price - per_unit)
  let new2 := max new1 item.cost
  if 0 < item.compP then min new2 (round2 (item.compP - 1/100)) else new2

/-- The correction loop of pricing.py lines 141-154. -/
def correct : List PLine → ℚ → List CorrItem → List PLine
  | s, _, [] => s
  | s, rc, item :: rest =>
    if |rc| ≤ 1/100 then s
    else
      let new_p := corrValue item rc
      let s' := updPrice s item.idx new_p
      let actual := (item.price - new_p) * item.qty
      correct s' (rc - actual) rest

/-- Steps 2-6 of `calculate_prices` (pricing.py lines 54-154), applied to the
initially priced rows.  The aggregate-target block (steps 2-4) and the final
correction (step 6) only run when the competitor subset is non-empty, exactly
as in the source; `target_total` is the pure value computed at step 2. -/
def pricePasses (t : ℚ) (m : List PLine) : List PLine :=
  let cIdx := compIdx m
  let m2 :=
    if cIdx = [] then m
    else
      let delta := sumPriceQty cIdx - targetTotal t cIdx
      if 0 < delta then redistribute m delta (sortAsc (mkMargins cIdx)) else m
  let m3 := step5 m2
  if cIdx = [] then m3
  else
    let rc := sumPriceQty (compIdx m3) - targetTotal t cIdx
    if 1/2 < |rc| then correct m3 rc (sortDesc (mkCorr (compIdx m3))) else m3

/-- `calculate_prices` (pricing.py lines 14-164) on a list of rows, with the
default fallback markup of 30 % baked in as in the source.  The derived
columns `Сумма`, `Маржа`, `Маржа %` (lines 157-159) do not touch
`Наша цена` and are not modelled; the final `sort_values('№')` is the
identity on pipeline data, where `№` is `1..n` in order. -/
def calculate_prices (t : ℚ) (l : List PLine) : List PLine :=
  pricePasses t (l.map step1)

/-- The projection of a row onto the columns `calculate_prices` reads but
never writes (`Цена конкурента`, `Себестоимость`, `Кол-во`). -/
def core (x : PLine) : ℚ × ℚ × ℚ := (x.comp, x.cost, x.qty)

end KP

namespace KP

/-! Embedding of `src/matching/product_matcher.py`. -/

/-- The dict returned by `extract_packaging`: optional weight (grams),
volume (millilitres), fat percentage and piece count. -/
structure Packaging where
  weight_g : Option ℚ := none
  volume_ml : Option ℚ := none
  fat_pct : Option ℚ := none
  count : Option ℕ := none
deriving DecidableEq

/-- Python dict truthiness: the extracted dict is empty. -/
def Packaging.isEmptyP (p : Packaging) : Bool :=
  p.weight_g.isNone && p.volume_ml.isNone && p.fat_pct.isNone && p.count.isNone

/-- `str.lower()` on the alphabets that occur in the data (ASCII and
Cyrillic). -/
def lowerChar (c : Char) : Char :=
  if 'A' ≤ c ∧ c ≤ 'Z' then Char.ofNat (c.toNat + 32)
  else if 'А' ≤ c ∧ c ≤ 'Я' then Char.ofNat (c.toNat + 32)
  else if c = 'Ё' then 'ё'
  else c

def lowerStr (s : String) : String := String.mk (s.data.map lowerChar)

/-- `\s` of the regexes (whitespace). -/
def isSpaceCh (c : Char) : Bool := c = ' ' ∨ c = '\t' ∨ c = '\n' ∨ c = '\r'

/-- `\w` of the regexes (word character: letter, digit or underscore),
for the Latin and Cyrillic alphabets in the data. -/
def isWordCh (c : Char) : Bool :=
  c.isDigit || c.isAlpha || c = '_' ||
  ('а' ≤ c && c ≤ 'я') || ('А' ≤ c && c ≤ 'Я') || c = 'ё' || c = 'Ё'

/-- Longest digit run at the head of the list (`\d+` / `\d*`). -/
def takeDigits : List Char → List Char × List Char
  | [] => ([], [])
  | c :: cs =>
    if c.isDigit then
      let p := takeDigits cs
      (c :: p.1, p.2)
    else ([], c :: cs)

def digitVal (c : Char) : ℕ := c.toNat - '0'.toNat

def digitsToNat (ds : List Char) : ℕ := ds.foldl (fun n c => 10 * n + digitVal c) 0

/-- `float(val_str.replace(',', '.'))` for a match of `\d+[,.]?\d*`. -/
def numVal (d1 d2 : List Char) : ℚ :=
  (digitsToNat d1 : ℚ) + (digitsToNat d2 : ℚ) / (10 ^ d2.length)

/-- Greedy parse of `\d+[,.]?\d*` at the head of the list; returns the value
and the unconsumed suffix.  (As in the regex, a bare trailing separator is
consumed: `float("12.") = 12`.) -/
def parseNumber : List Char → Option (ℚ × List Char) := fun cs =>
  match takeDigits cs with
  | ([], _) => none
  | (d1, rest) =>
    match rest with
    | [] => some (numVal d1 [], [])
    | c :: rest2 =>
      if c = ',' ∨ c = '.' then
        let p := takeDigits rest2
        some (numVal d1 p.1, p.2)
      else some (numVal d1 [], c :: rest2)

/-- Literal-prefix match; returns the suffix after the literal. -/
def dropLit : List Char → List Char → Option (List Char)
  | [], cs => some cs
  | _ :: _, [] => none
  | u :: us, c :: cs => if c = u then dropLit us cs else none

/-- Regex alternation over unit literals, in source order, with an optional
`\b` word-boundary check after the matched literal. -/
def tryAlts (alts : List (List Char)) (needBoundary : Bool) (cs : List Char) :
    Option (List Char × List Char) :=
  match alts with
  | [] => none
  | a :: rest =>
    match dropLit a cs with
    | some after =>
      if needBoundary then
        match after with
        | [] => some (a, after)
        | c :: _ => if isWordCh c then tryAlts rest needBoundary cs else some (a, after)
      else some (a, after)
    | none => tryAlts rest needBoundary cs

/-- First match of `(\d+[,.]?\d*)\s*(alt₁|alt₂|…)` scanning left to right
(the `re.findall(...)[0]` used by `extract_packaging`); returns the numeric
value and which alternative matched. -/
def findNumUnit (alts : List (List Char)) (needB : Bool) : List Char → Option (ℚ × List Char)
  | [] => none
  | c :: cs =>
    match parseNumber (c :: cs) with
    | some (v, rest) =>
      (match tryAlts alts needB (rest.dropWhile isSpaceCh) with
       | some (u, _) => some (v, u)
       | none => findNumUnit alts needB cs)
    | none => findNumUnit alts needB cs

/-- First match of `(\d+)\s*шт` (the count pattern, integer only). -/
def findCount : List Char → Option ℕ
  | [] => none
  | c :: cs =>
    match takeDigits (c :: cs) with
    | ([], _) => findCount cs
    | (ds, rest) =>
      match tryAlts [['ш','т']] false (rest.dropWhile isSpaceCh) with
      | some _ => some (digitsToNat ds)
      | none => findCount cs

/-- `extract_packaging` (product_matcher.py lines 15-58): first weight,
volume, fat-% and count tokens of the lowercased text, normalised to grams
and millilitres. -/
def extract_packaging (name : String) : Packaging :=
  if name = "" then {}
  else
    let s := (lowerStr name).data
    let w := (findNumUnit [['г','р'], ['г'], ['к','г']] true s).map
      (fun p => if p.2 = ['к','г'] then p.1 * 1000 else p.1)
    let v := (findNumUnit [['м','л'], ['л']] true s).map
      (fun p => if p.2 = ['л'] then p.1 * 1000 else p.1)
    let f := (findNumUnit [['%']] false s).map (fun p => p.1)
    let c := findCount s
    { weight_g := w, volume_ml := v, fat_pct := f, count := c }

/-- `abs(a - b) > tol` when both sides carry the attribute (the early-return
checks of `packaging_compatible`). -/
def mismatchQ (a b : Option ℚ) (tol : ℚ) : Bool :=
  match a, b with
  | some x, some y => decide (tol < |x - y|)
  | _, _ => false

/-- `pkg1['count'] != pkg2['count']` when both sides carry a count. -/
def mismatchCount (a b : Option ℕ) : Bool :=
  match a, b with
  | some x, some y => decide (x ≠ y)
  | _, _ => false

/-- `packaging_compatible` (product_matcher.py lines 61-90). -/
def packaging_compatible (pkg1 pkg2 : Packaging) : Bool :=
  let has1 := pkg1.weight_g.isSome || pkg1.volume_ml.isSome
  let has2 := pkg2.weight_g.isSome || pkg2.volume_ml.isSome
  if has1 != has2 then false
  else if mismatchQ pkg1.weight_g pkg2.weight_g 1 then false
  else if mismatchQ pkg1.volume_ml pkg2.volume_ml 1 then false
  else if mismatchQ pkg1.fat_pct pkg2.fat_pct (1/10) then false
  else if mismatchCount pkg1.count pkg2.count then false
  else true

/-- Per-attribute agreement as the spec sentence of claim C2 words it: both
absent is fine, both present must be within tolerance, and one-sided
presence is incompatible. -/
def specAgreeQ (a b : Option ℚ) (tol : ℚ) : Bool :=
  match a, b with
  | some x, some y => decide (|x - y| ≤ tol)
  | none, none => true
  | _, _ => false

def specAgreeCount (a b : Option ℕ) : Bool :=
  match a, b with
  | some x, some y => decide (x = y)
  | none, none => true
  | _, _ => false

/-- The compatibility predicate claimed by the spec (claim C2): every
category must agree per `specAgreeQ`/`specAgreeCount`. -/
def packaging_compatible_spec (p q : Packaging) : Bool :=
  specAgreeQ p.weight_g q.weight_g 1 && specAgreeQ p.volume_ml q.volume_ml 1 &&
  specAgreeQ p.fat_pct q.fat_pct (1/10) && specAgreeCount p.count q.count

/-- Agreement required only when both sides carry the attribute. -/
def agreeIfBothQ (a b : Option ℚ) (tol : ℚ) : Bool :=
  match a, b with
  | some x, some y => decide (|x - y| ≤ tol)
  | _, _ => true

def agreeIfBothCount (a b : Option ℕ) : Bool :=
  match a, b with
  | some x, some y => decide (x = y)
  | _, _ => true

/-- The amended compatibility predicate: the two sides must agree on whether
any weight-or-volume datum is present, and attributes present on both sides
must agree within tolerance; one-sided attributes are otherwise
unconstrained. -/
def packaging_compatible_amended (p q : Packaging) : Bool :=
  ((p.weight_g.isSome || p.volume_ml.isSome) == (q.weight_g.isSome || q.volume_ml.isSome)) &&
  agreeIfBothQ p.weight_g q.weight_g 1 && agreeIfBothQ p.volume_ml q.volume_ml 1 &&
  agreeIfBothQ p.fat_pct q.fat_pct (1/10) && agreeIfBothCount p.count q.count

/-- `calc_packaging_ratio` (product_matcher.py lines 93-112): price
conversion coefficient between two packagings (weight first, then volume;
a non-positive source weight falls through to the volume check, as in the
source which only returns from inside the inner `if`). -/
def calc_packaging_coef (target_pkg source_pkg : Packaging) : Option ℚ :=
  let byVolume : Option ℚ :=
    match target_pkg.volume_ml, source_pkg.volume_ml with
    | some tv, some sv => if 0 < sv then some (tv / sv) else none
    | _, _ => none
  match target_pkg.weight_g, source_pkg.weight_g with
  | some tw, some sw => if 0 < sw then some (tw / sw) else byVolume
  | _, _ => byVolume

def rstripDot (s : List Char) : List Char :=
  (s.reverse.dropWhile (fun c => c = '.')).reverse

def stripSp (s : List Char) : List Char :=
  ((s.dropWhile isSpaceCh).reverse.dropWhile isSpaceCh).reverse

/-- `unit_to_base` (product_matcher.py lines 115-134). -/
def unit_to_base (unit_str : String) : Option Packaging :=
  let u : List Char := rstripDot (stripSp ((lowerStr unit_str).data))
  if u = ['к','г'] then some { weight_g := some 1000 }
  else if u = ['г'] ∨ u = ['г','р'] then some { weight_g := some 1 }
  else if u = ['л'] then some { volume_ml := some 1000 }
  else if u = ['м','л'] then some { volume_ml := some 1 }
  else none

/-- Plain rendering of a rational for diagnostic notes.  It stands in for
Python's decimal float formatting; the notes' numeric digits are
display-only and no claim depends on them. -/
def ratStr (q : ℚ) : String :=
  if q.den = 1 then toString q.num else toString q.num ++ "/" ++ toString q.den

/-- `adjust_cost_for_unit` (product_matcher.py lines 137-183): rescale a
catalog price from its packaging to the requested unit when the dimensions
line up, attaching a note when a rescale or a dimension conflict happens. -/
def adjust_cost_for_unit (cost_price : ℚ) (cost_tara : String) (request_unit : String) :
    ℚ × String :=
  if cost_tara = "" ∨ request_unit = "" then (cost_price, "")
  else
    let tara_pkg := extract_packaging cost_tara
    if tara_pkg.isEmptyP then (cost_price, "")
    else
      match unit_to_base request_unit with
      | none => (cost_price, "")
      | some target_base =>
        let coef : Option ℚ :=
          match target_base.weight_g, tara_pkg.weight_g with
          | some tw, some sw => if 0 < sw then some (tw / sw) else none
          | _, _ =>
            match target_base.volume_ml, tara_pkg.volume_ml with
            | some tv, some sv => if 0 < sv then some (tv / sv) else none
            | _, _ => none
        match coef with
        | none =>
          let tara_type := if tara_pkg.weight_g.isSome then "вес"
            else if tara_pkg.volume_ml.isSome then "объём" else "?"
          let unit_type := if target_base.weight_g.isSome then "вес"
            else if target_base.volume_ml.isSome then "объём" else "?"
          if tara_type ≠ unit_type then
            (cost_price, "Несовпадение: тара [" ++ cost_tara ++ "] (" ++ tara_type ++
              ") vs ед.изм. [" ++ request_unit ++ "] (" ++ unit_type ++ ")")
          else (cost_price, "")
        | some c =>
          if |c - 1| < 1/1000 then (cost_price, "")
          else
            let adjusted := round2 (cost_price * c)
            (adjusted, ratStr cost_price ++ " за [" ++ cost_tara ++ "] → " ++
              ratStr adjusted ++ " за [" ++ request_unit ++ "] (×" ++ ratStr c ++ ")")

/-- `format_packaging` (product_matcher.py lines 186-211), display only: the
same parts in the same order; the source's promotion of ≥ 1000 to кг/л is a
formatting nicety no claim depends on. -/
def format_packaging (pkg : Packaging) : String :=
  let parts : List String :=
    (match pkg.weight_g with | some w => [ratStr w ++ "г"] | none => []) ++
    (match pkg.volume_ml with | some v => [ratStr v ++ "мл"] | none => []) ++
    (match pkg.fat_pct with | some f => [ratStr f ++ "%"] | none => []) ++
    (match pkg.count with | some c => [toString c ++ "шт"] | none => [])
  String.intercalate ", " parts

/-- One `re.sub(pattern, '', s)` pass: scan left to right, chop a match and
continue after it, otherwise keep the character.  Fuel-driven so the
definition is structural; the fuel `length + 1` always suffices because a
chop consumes at least one character. -/
def removeAllAux (chop : List Char → Option (List Char)) : ℕ → List Char → List Char
  | 0, cs => cs
  | _+1, [] => []
  | fuel+1, c :: cs =>
    match chop (c :: cs) with
    | some rest => removeAllAux chop fuel rest
    | none => c :: removeAllAux chop fuel cs

def removeAll (chop : List Char → Option (List Char)) (cs : List Char) : List Char :=
  removeAllAux chop (cs.length + 1) cs

/-- A match of `\d+[,.]?\d*\s*(гр|г|кг|мл|л|шт)\.?` at the head of the list
(the first substitution of `normalize_name`; note: no word boundary). -/
def unitTokenChop : List Char → Option (List Char) := fun cs =>
  match parseNumber cs with
  | none => none
  | some (_, rest) =>
    match tryAlts [['г','р'], ['г'], ['к','г'], ['м','л'], ['л'], ['ш','т']] false
        (rest.dropWhile isSpaceCh) with
    | some (_, after) =>
      some (match after with
            | '.' :: r => r
            | r => r)
    | none => none

/-- A match of `\d+[,.]?\d*\s*%` at the head of the list. -/
def pctChop : List Char → Option (List Char) := fun cs =>
  match parseNumber cs with
  | none => none
  | some (_, rest) =>
    match tryAlts [['%']] false (rest.dropWhile isSpaceCh) with
    | some (_, after) => some after
    | none => none

/-- A match of `[(\[«"][^)\]»"]*[)\]»"]` at the head of the list. -/
def bracketChop : List Char → Option (List Char) := fun cs =>
  match cs with
  | [] => none
  | c :: rest =>
    if c = '(' ∨ c = '[' ∨ c = '«' ∨ c = '"' then
      match rest.dropWhile (fun d => !(d = ')' ∨ d = ']' ∨ d = '»' ∨ d = '"')) with
      | _ :: after => some after
      | [] => none
    else none

/-- `re.sub(r'^\d+\s*\.?\s*', '', s)`: strip a leading line number. -/
def dropLeadingNum (cs : List Char) : List Char :=
  match takeDigits cs with
  | ([], _) => cs
  | (_, rest) =>
    let r1 := rest.dropWhile isSpaceCh
    match r1 with
    | '.' :: r => r.dropWhile isSpaceCh
    | _ => r1

def splitWsAux : List Char → List Char → List (List Char)
  | [], acc => if acc = [] then [] else [acc.reverse]
  | c :: cs, acc =>
    if isSpaceCh c then
      if acc = [] then splitWsAux cs [] else acc.reverse :: splitWsAux cs []
    else splitWsAux cs (c :: acc)

/-- `' '.join(s.split())`: collapse whitespace runs, trimming the ends. -/
def collapseWs (cs : List Char) : List Char :=
  List.intercalate [' '] (splitWsAux cs [])

/-- `normalize_name` (product_matcher.py lines 214-231). -/
def normalize_name (name : String) : String :=
  if name = "" then ""
  else
    let s0 := stripSp ((lowerStr name).data)
    let s1 := removeAll unitTokenChop s0
    let s2 := removeAll pctChop s1
    let s3 := removeAll bracketChop s2
    let s4 := s3.filter (fun c => !(c = '«' ∨ c = '»' ∨ c = '"' ∨ c = '\''))
    let s5 := dropLeadingNum s4
    String.mk (collapseWs s5)

/-- `get_row_packaging` (product_matcher.py lines 234-249), on the row's
`Тара` column text and its name text. -/
def get_row_packaging (tara name : String) : Packaging :=
  if tara ≠ "" then
    let pkg := extract_packaging tara
    if !pkg.isEmptyP then pkg else extract_packaging name
  else extract_packaging name

/-- One entry of the `matches` list built by `find_best_match`. -/
structure MatchCand (α : Type) where
  row : α
  name : String
  score : ℕ
  pkg : Packaging
  compatible : Bool

/-- Python's `max(..., key=score)`: the first candidate of maximal score. -/
def pickMaxAux {α : Type} (best : MatchCand α) : List (MatchCand α) → MatchCand α
  | [] => best
  | m :: ms => pickMaxAux (if best.score < m.score then m else best) ms

/-- `find_best_match` (product_matcher.py lines 252-326).  `sim` abstracts
the external fuzzywuzzy scorer
`max(fuzz.ratio, fuzz.token_sort_ratio, fuzz.token_set_ratio)` applied to
the two normalised names; every claim about this function holds for any
scorer.  `getName`/`getTara` project the `Наименование`/`Тара` columns of a
candidate row. -/
def find_best_match {α : Type} (sim : String → String → ℕ)
    (getName getTara : α → String) (target_name : String) (candidates : List α) :
    Option α × ℕ × String :=
  if candidates.isEmpty then (none, 0, "")
  else
    let target_norm := normalize_name target_name
    if target_norm = "" then (none, 0, "")
    else
      let target_pkg := extract_packaging target_name
      let cands90 := candidates.filterMap (fun row =>
        let candidate_name := getName row
        let candidate_norm := normalize_name candidate_name
        if candidate_norm = "" then none
        else
          let score := sim target_norm candidate_norm
          if 90 ≤ score then
            let candidate_pkg := get_row_packaging (getTara row) candidate_name
            some { row := row, name := candidate_name, score := score,
                   pkg := candidate_pkg,
                   compatible := packaging_compatible target_pkg candidate_pkg }
          else none)
      match cands90 with
      | [] =>
        let best := candidates.foldl (fun acc row =>
          let candidate_name := getName row
          let candidate_norm := normalize_name candidate_name
          if candidate_norm = "" then acc
          else
            let score := sim target_norm candidate_norm
            if acc.1 < score then (score, candidate_name) else acc) ((0 : ℕ), "")
        (none, best.1, best.2)
      | m :: ms =>
        match (m :: ms).filter (fun cand => cand.compatible) with
        | c :: cs =>
          let best := pickMaxAux c cs
          (some best.row, best.score, best.name)
        | [] =>
          let best := pickMaxAux m ms
          (some best.row, best.score, best.name)

/-- A row of the cost catalog (`Наименование`, `Себестоимость`, `Тара`). -/
structure CostRow where
  name : String
  cost : ℚ
  tara : String
deriving DecidableEq

/-- A row of the competitor catalog (`Наименование`, `Цена`). -/
structure CompRow where
  name : String
  price : ℚ
deriving DecidableEq

/-- A request line (`Наименование`, `Описание`, `Ед.изм.`, `Кол-во`). -/
structure RequestLine where
  name : String
  description : String
  unit : String
  qty : ℚ
deriving DecidableEq

/-- An output row of `match_products`.  The quantity-correction note is kept
structurally as the pair of values the source renders into its
`⚠️ Кол-во: old→new` text. -/
structure MatchedLine where
  num : ℕ
  name : String
  description : String
  unit : String
  qty : ℚ
  cost : ℚ
  competitor_price : ℚ
  has_competitor : Bool
  match_info : String
  qty_note : Option (ℚ × ℚ)
  tara_note : String
deriving DecidableEq

/-- The quantity sanitation of `match_products` (product_matcher.py lines
353-358): quantities above 1 000 000 are divided by 1000, quantities above
100 000 (up to 1 000 000) by 100; the note records original and corrected
values. -/
def sanitizeQty (qty : ℚ) : ℚ × Option (ℚ × ℚ) :=
  if 100000 < qty then
    let q2 := if 1000000 < qty then qty / 1000 else qty / 100
    (q2, some (qty, q2))
  else (qty, none)

/-- The effective product name (product_matcher.py lines 349-351). -/
def effName (idx : ℕ) (r : RequestLine) : String :=
  if r.name = "" ∨ r.name = "nan" then
    "(позиция " ++ toString (idx + 1) ++ " — без названия)"
  else r.name

/-- The effective unit (product_matcher.py line 347). -/
def effUnit (r : RequestLine) : String := if r.unit = "" then "кг" else r.unit

def lstripSpPipe (s : String) : String :=
  String.mk (s.data.dropWhile (fun c => c = ' ' ∨ c = '|'))

/-- `tara_note = (tara_note + extra) if tara_note else "⚠️" + extra.lstrip(' |')`. -/
def appendCompNote (tn extra : String) : String :=
  if tn ≠ "" then tn ++ extra else "⚠️" ++ lstripSpPipe extra

/-- The `тара не совпадает` diagnostic of product_matcher.py lines 410-412. -/
def mismatchNoteStr (tp cp : Packaging) : String :=
  let t_info := if !tp.isEmptyP then format_packaging tp else "?"
  let c_info := if !cp.isEmptyP then format_packaging cp else "?"
  " | Конк: тара не совпадает [" ++ t_info ++ "] vs [" ++ c_info ++ "]"

/-- The body of the `match_products` loop (product_matcher.py lines 343-440)
for one request line at DataFrame position `idx`. -/
def processLine (sim : String → String → ℕ) (cost_df : List CostRow)
    (competitor_df : List CompRow) (idx : ℕ) (r : RequestLine) : MatchedLine :=
  let product_name := effName idx r
  let unit := effUnit r
  let qs := sanitizeQty r.qty
  let cres := find_best_match sim CostRow.name CostRow.tara product_name cost_df
  let cost_score := cres.2.1
  let cost_name := cres.2.2
  let cpair : ℚ × String :=
    match cres.1 with
    | none => (0, "")
    | some row =>
      if row.tara ≠ "" then
        let ap := adjust_cost_for_unit row.cost row.tara unit
        if ap.2 ≠ "" then (ap.1, "⚠️ " ++ ap.2)
        else (row.cost, "Себес за [" ++ row.tara ++ "]")
      else (row.cost, "")
  let cost_price := cpair.1
  let tara_note1 :=
    if cost_price ≤ 0 then
      "❌ Себес не найдена (лучший: " ++ cost_name.take 40 ++ ", скор: " ++
        toString cost_score ++ ")"
    else cpair.2
  let fres := find_best_match sim CompRow.name (fun _ => "") product_name competitor_df
  let comp_score := fres.2.1
  let comp_name := fres.2.2
  let ctrip : ℚ × Bool × String :=
    match fres.1 with
    | none => (0, false, tara_note1)
    | some row =>
      if 0 < row.price ∧ row.price < 100000 then
        let target_pkg := extract_packaging product_name
        let comp_pkg := extract_packaging comp_name
        let cp2s : ℚ × String :=
          if packaging_compatible target_pkg comp_pkg then (row.price, tara_note1)
          else
            match calc_packaging_coef target_pkg comp_pkg with
            | some coef =>
              if 0 < coef then
                let newp := round2 (row.price * coef)
                (newp, appendCompNote tara_note1
                  (" | Конк.тара: [" ++ format_packaging comp_pkg ++ "]→×" ++
                    ratStr coef ++ " (" ++ ratStr row.price ++ "→" ++ ratStr newp ++ ")"))
              else (0, appendCompNote tara_note1 (mismatchNoteStr target_pkg comp_pkg))
            | none => (0, appendCompNote tara_note1 (mismatchNoteStr target_pkg comp_pkg))
        (cp2s.1, decide (0 < cp2s.1), cp2s.2)
      else (0, false, tara_note1)
  let competitor_price := ctrip.1
  let has_competitor := ctrip.2.1
  let match_info :=
    if has_competitor then
      "Себес: " ++ cost_name.take 30 ++ "(" ++ toString cost_score ++ ") | Конк: " ++
        comp_name.take 30 ++ "(" ++ toString comp_score ++ ")"
    else ""
  { num := idx + 1, name := product_name, description := r.description, unit := unit,
    qty := qs.1, cost := cost_price,
    competitor_price := if has_competitor then competitor_price else 0,
    has_competitor := has_competitor, match_info := match_info,
    qty_note := qs.2, tara_note := ctrip.2.2 }

def matchAux (sim : String → String → ℕ) (cost_df : List CostRow)
    (competitor_df : List CompRow) : ℕ → List RequestLine → List MatchedLine
  | _, [] => []
  | i, r :: rs =>
    processLine sim cost_df competitor_df i r :: matchAux sim cost_df competitor_df (i+1) rs

/-- `match_products` (product_matcher.py lines 329-455): one `MatchedLine`
per request line, in order; the summary `print`s are side effects with no
data-flow.  There is no emptiness check anywhere: an empty request list
yields `[]` and empty catalogs yield degraded lines. -/
def match_products (sim : String → String → ℕ) (request_df : List RequestLine)
    (cost_df : List CostRow) (competitor_df : List CompRow) : List MatchedLine :=
  matchAux sim cost_df competitor_df 0 request_df

end KP

namespace KP

/-! Helper lemmas about the pricing loops. -/

theorem updPrice_get?_self (l : List PLine) (i : ℕ) (v : ℚ) :
    (updPrice l i v).get? i = (l.get? i).map (fun x => { x with price := v }) := by
  induction l generalizing i with
  | nil => cases i <;> rfl
  | cons x xs ih =>
    cases i with
    | zero => rfl
    | succ n => simpa [updPrice] using ih n

theorem updPrice_get?_ne (l : List PLine) (i j : ℕ) (v : ℚ) (h : j ≠ i) :
    (updPrice l i v).get? j = l.get? j := by
  induction l generalizing i j with
  | nil => cases i <;> rfl
  | cons x xs ih =>
    cases i with
    | zero =>
      cases j with
      | zero => exact absurd rfl h
      | succ m => rfl
    | succ n =>
      cases j with
      | zero => rfl
      | succ m =>
        simpa [updPrice] using ih n m (fun hh => h (by rw [hh]))

theorem mem_updPrice {y : PLine} {l : List PLine} {i : ℕ} {v : ℚ}
    (h : y ∈ updPrice l i v) :
    y ∈ l ∨ ∃ x, l.get? i = some x ∧ y = { x with price := v } := by
  induction l generalizing i with
  | nil => simp [updPrice] at h
  | cons x xs ih =>
    cases i with
    | zero =>
      rcases List.mem_cons.mp h with rfl | hm
      · exact Or.inr ⟨x, rfl, rfl⟩
      · exact Or.inl (List.mem_cons_of_mem _ hm)
    | succ n =>
      rcases List.mem_cons.mp h with rfl | hm
      · exact Or.inl (List.mem_cons_self _ _)
      · rcases ih hm with h1 | ⟨x', hx', hy⟩
        · exact Or.inl (List.mem_cons_of_mem _ h1)
        · exact Or.inr ⟨x', hx', hy⟩

theorem updPrice_map_core (l : List PLine) (i : ℕ) (v : ℚ) :
    (updPrice l i v).map core = l.map core := by
  induction l generalizing i with
  | nil => rfl
  | cons x xs ih => cases i <;> simp [updPrice, core, ih]

theorem updPrice_self {l : List PLine} {i : ℕ} {x : PLine} (h : l.get? i = some x) :
    updPrice l i x.price = l := by
  induction l generalizing i with
  | nil => simp at h
  | cons a as ih =>
    cases i with
    | zero =>
      simp only [List.get?] at h
      injection h with h
      subst h
      rfl
    | succ n =>
      simp only [List.get?] at h
      simp [updPrice, ih h]

/-- `comp`, `cost`, `qty` of a row are unchanged by a price write. -/
theorem updPrice_get?_core (l : List PLine) (i : ℕ) (v : ℚ) (j : ℕ) :
    ((updPrice l i v).get? j).map core = (l.get? j).map core := by
  have h := congrArg (fun s => s.get? j) (updPrice_map_core l i v)
  simpa [List.get?_map] using h

theorem mem_compIdxAux {p : ℕ × PLine} :
    ∀ {n : ℕ} {l : List PLine}, p ∈ compIdxAux n l →
      n ≤ p.1 ∧ l.get? (p.1 - n) = some p.2 ∧ 0 < p.2.comp := by
  intro n l
  induction l generalizing n with
  | nil => intro h; simp [compIdxAux] at h
  | cons x xs ih =>
    intro h
    simp only [compIdxAux] at h
    by_cases hc : 0 < x.comp
    · rw [if_pos hc] at h
      rcases List.mem_cons.mp h with heq | hm
      · subst heq
        exact ⟨le_rfl, by simp, hc⟩
      · obtain ⟨hn, hget, hcomp⟩ := ih hm
        refine ⟨by omega, ?_, hcomp⟩
        have hd : p.1 - n = (p.1 - (n + 1)) + 1 := by omega
        rw [hd]
        simpa using hget
    · rw [if_neg hc] at h
      obtain ⟨hn, hget, hcomp⟩ := ih h
      refine ⟨by omega, ?_, hcomp⟩
      have hd : p.1 - n = (p.1 - (n + 1)) + 1 := by omega
      rw [hd]
      simpa using hget

theorem mem_compIdx {p : ℕ × PLine} {l : List PLine} (h : p ∈ compIdx l) :
    l.get? p.1 = some p.2 ∧ 0 < p.2.comp := by
  have h2 := mem_compIdxAux (n := 0) h
  simpa using h2.2

theorem mem_insDesc {a y : CorrItem} {l : List CorrItem} (h : y ∈ insDesc a l) :
    y = a ∨ y ∈ l := by
  induction l with
  | nil => simpa [insDesc] using h
  | cons b bs ih =>
    simp only [insDesc] at h
    split at h
    · rcases List.mem_cons.mp h with rfl | hm
      · exact Or.inl rfl
      · exact Or.inr hm
    · rcases List.mem_cons.mp h with rfl | hm
      · exact Or.inr (List.mem_cons_self _ _)
      · rcases ih hm with h1 | h2
        · exact Or.inl h1
        · exact Or.inr (List.mem_cons_of_mem _ h2)

theorem mem_sortDesc {y : CorrItem} {l : List CorrItem} (h : y ∈ sortDesc l) : y ∈ l := by
  induction l with
  | nil => simpa [sortDesc] using h
  | cons a as ih =>
    rcases mem_insDesc h with rfl | hm
    · exact List.mem_cons_self _ _
    · exact List.mem_cons_of_mem _ (ih hm)

theorem mem_mkCorr {it : CorrItem} {c : List (ℕ × PLine)} (h : it ∈ mkCorr c) :
    ∃ p ∈ c, 0 < p.2.qty ∧ p.2.cost < p.2.price ∧
      it = { idx := p.1, margin := (p.2.price - p.2.cost) / p.2.price, qty := p.2.qty,
             price := p.2.price, cost := p.2.cost, compP := p.2.comp } := by
  unfold mkCorr at h
  rcases List.mem_filterMap.mp h with ⟨p, hp, hf⟩
  dsimp only at hf
  split at hf
  · rename_i hcond
    injection hf with hf
    exact ⟨p, hp, hcond.1, hcond.2, hf.symm⟩
  · exact absurd hf (by simp)

/-- The snapshot fields of every correction candidate match the state row it
points at, and that row is in the competitor subset. -/
theorem corrItems_snap {s : List PLine} {it : CorrItem}
    (h : it ∈ sortDesc (mkCorr (compIdx s))) :
    ∃ x, s.get? it.idx = some x ∧ it.compP = x.comp ∧ it.cost = x.cost ∧ 0 < x.comp := by
  rcases mem_mkCorr (mem_sortDesc h) with ⟨p, hp, _, _, rfl⟩
  rcases mem_compIdx hp with ⟨hget, hcomp⟩
  exact ⟨p.2, hget, rfl, rfl, hcomp⟩

/-- Rich version used by the frame theorem: the candidate's price and qty
snapshots also match the state row. -/
theorem corrItems_snap_full {s : List PLine} {it : CorrItem}
    (h : it ∈ sortDesc (mkCorr (compIdx s))) :
    ∃ x, s.get? it.idx = some x ∧ it.compP = x.comp ∧ it.cost = x.cost ∧
      it.price = x.price ∧ it.qty = x.qty ∧ 0 < it.qty ∧ 0 < x.comp := by
  rcases mem_mkCorr (mem_sortDesc h) with ⟨p, hp, hq, _, rfl⟩
  rcases mem_compIdx hp with ⟨hget, hcomp⟩
  exact ⟨p.2, hget, rfl, rfl, rfl, rfl, hq, hcomp⟩

/-- Invariant propagation through the correction loop: any pointwise
property `P` that survives a `corrValue` price write (on a competitor-subset
row whose candidate snapshot is consistent) holds for the loop's output. -/
theorem correct_forall {P : PLine → Prop}
    (hupd : ∀ (it : CorrItem) (x : PLine) (rc : ℚ),
      P x → it.compP = x.comp → it.cost = x.cost → 0 < x.comp →
      P { x with price := corrValue it rc }) :
    ∀ (items : List CorrItem) (s : List PLine) (rc : ℚ),
      (∀ y ∈ s, P y) →
      (∀ it ∈ items, ∃ x, s.get? it.idx = some x ∧ it.compP = x.comp ∧
        it.cost = x.cost ∧ 0 < x.comp) →
      ∀ y ∈ correct s rc items, P y := by
  intro items
  induction items with
  | nil =>
    intro s rc hs _ y hy
    rw [correct] at hy
    exact hs y hy
  | cons it rest ih =>
    intro s rc hs hsnap y hy
    rw [correct] at hy
    split at hy
    · exact hs y hy
    · dsimp only at hy
      refine ih (updPrice s it.idx (corrValue it rc)) _ ?_ ?_ y hy
      · intro z hz
        rcases mem_updPrice hz with hz1 | ⟨x, hx, rfl⟩
        · exact hs z hz1
        · obtain ⟨x₀, hx₀, hcomp, hcost, hpos⟩ := hsnap it (List.mem_cons_self _ _)
          rw [hx₀] at hx
          injection hx with hx
          subst hx
          exact hupd it x₀ rc (hs x₀ (List.get?_mem hx₀)) hcomp hcost hpos
      · intro it' hit'
        obtain ⟨x', hx', h1, h2, h3⟩ := hsnap it' (List.mem_cons_of_mem _ hit')
        by_cases hidx : it'.idx = it.idx
        · rw [hidx] at hx' ⊢
          rw [updPrice_get?_self, hx']
          exact ⟨_, rfl, h1, h2, h3⟩
        · rw [updPrice_get?_ne _ _ _ _ hidx]
          exact ⟨x', hx', h1, h2, h3⟩

/-- Invariant propagation through the redistribution loop: the price written
is always `round2 (max (price - reduction) cost)` of the row itself. -/
theorem redistribute_forall {P : PLine → Prop}
    (hupd : ∀ (x : PLine) (pr : ℚ),
      P x → P { x with price := round2 (max (x.price - pr) x.cost) }) :
    ∀ (items : List MarginItem) (s : List PLine) (rem : ℚ),
      (∀ y ∈ s, P y) → ∀ y ∈ redistribute s rem items, P y := by
  intro items
  induction items with
  | nil =>
    intro s rem hs y hy
    rw [redistribute] at hy
    exact hs y hy
  | cons it rest ih =>
    intro s rem hs y hy
    rw [redistribute] at hy
    split at hy
    · exact hs y hy
    · split at hy
      · exact ih s rem hs y hy
      · cases hget : s.get? it.idx with
        | none =>
          rw [hget] at hy
          exact ih s rem hs y hy
        | some x =>
          rw [hget] at hy
          dsimp only at hy
          refine ih _ _ ?_ y hy
          intro z hz
          rcases mem_updPrice hz with hz1 | ⟨x', hx', hzeq⟩
          · exact hs z hz1
          · rw [hget] at hx'
            injection hx' with hx'
            subst hzeq
            rw [← hx']
            exact hupd x _ (hs x (List.get?_mem hget))

/-- Invariant propagation through the safety clamp (step 5). -/
theorem step5_forall {P : PLine → Prop}
    (hupd : ∀ x, P x → 0 < x.comp → x.comp ≤ x.price →
      P { x with price := round2 (x.comp - 1/100) })
    {m : List PLine} (h : ∀ y ∈ m, P y) : ∀ y ∈ step5 m, P y := by
  intro y hy
  unfold step5 at hy
  rcases List.mem_map.mp hy with ⟨x, hx, rfl⟩
  split
  · rename_i hc
    exact hupd x (h x hx) hc.1 hc.2
  · exact h x hx

/-- After the safety clamp, every competitor row is strictly undercut,
whatever the input state. -/
theorem step5_undercut (m : List PLine) :
    ∀ y ∈ step5 m, 0 < y.comp → y.price < y.comp := by
  intro y hy
  unfold step5 at hy
  rcases List.mem_map.mp hy with ⟨x, hx, rfl⟩
  split
  · intro _
    exact round2_undercut _
  · rename_i hc
    intro hpos
    by_contra hge
    exact hc ⟨hpos, not_lt.mp hge⟩

/-- Generic invariant propagation through steps 2-6. -/
theorem pricePasses_forall {P : PLine → Prop}
    (hred : ∀ (x : PLine) (pr : ℚ), P x → P { x with price := round2 (max (x.price - pr) x.cost) })
    (hclamp : ∀ x, P x → 0 < x.comp → x.comp ≤ x.price →
      P { x with price := round2 (x.comp - 1/100) })
    (hcorr : ∀ (it : CorrItem) (x : PLine) (rc : ℚ),
      P x → it.compP = x.comp → it.cost = x.cost → 0 < x.comp →
      P { x with price := corrValue it rc })
    (t : ℚ) (m : List PLine) (hm : ∀ y ∈ m, P y) :
    ∀ y ∈ pricePasses t m, P y := by
  unfold pricePasses
  dsimp only
  split
  · exact step5_forall hclamp hm
  · have hm2 : ∀ y ∈ (if 0 < sumPriceQty (compIdx m) - targetTotal t (compIdx m) then
        redistribute m (sumPriceQty (compIdx m) - targetTotal t (compIdx m))
          (sortAsc (mkMargins (compIdx m)))
      else m), P y := by
      split
      · exact redistribute_forall hred _ _ _ hm
      · exact hm
    generalize hG : (if 0 < sumPriceQty (compIdx m) - targetTotal t (compIdx m) then
        redistribute m (sumPriceQty (compIdx m) - targetTotal t (compIdx m))
          (sortAsc (mkMargins (compIdx m)))
      else m) = M2 at hm2 ⊢
    have hm3 := step5_forall hclamp hm2
    split
    · exact correct_forall hcorr _ _ _ hm3 (fun it hit => corrItems_snap hit)
    · exact hm3

/-! Preservation of the read-only columns (`core`) through all passes. -/

theorem redistribute_map_core :
    ∀ (items : List MarginItem) (s : List PLine) (rem : ℚ),
      (redistribute s rem items).map core = s.map core := by
  intro items
  induction items with
  | nil =>
    intro s rem
    rw [redistribute]
  | cons it rest ih =>
    intro s rem
    rw [redistribute]
    split
    · rfl
    · split
      · exact ih s rem
      · cases hget : s.get? it.idx with
        | none => exact ih s rem
        | some x =>
          dsimp only
          rw [ih, updPrice_map_core]

theorem correct_map_core :
    ∀ (items : List CorrItem) (s : List PLine) (rc : ℚ),
      (correct s rc items).map core = s.map core := by
  intro items
  induction items with
  | nil =>
    intro s rc
    rw [correct]
  | cons it rest ih =>
    intro s rc
    rw [correct]
    split
    · rfl
    · dsimp only
      rw [ih, updPrice_map_core]

theorem step5_map_core (m : List PLine) : (step5 m).map core = m.map core := by
  unfold step5
  rw [List.map_map]
  refine List.map_congr_left ?_
  intro x _
  show core (if 0 < x.comp ∧ x.comp ≤ x.price
    then { x with price := round2 (x.comp - 1/100) } else x) = core x
  split <;> rfl

theorem pricePasses_map_core (t : ℚ) (m : List PLine) :
    (pricePasses t m).map core = m.map core := by
  unfold pricePasses
  dsimp only
  split
  · rw [step5_map_core]
  · have hM2 : (if 0 < sumPriceQty (compIdx m) - targetTotal t (compIdx m) then
        redistribute m (sumPriceQty (compIdx m) - targetTotal t (compIdx m))
          (sortAsc (mkMargins (compIdx m)))
      else m).map core = m.map core := by
      split
      · rw [redistribute_map_core]
      · rfl
    generalize hG : (if 0 < sumPriceQty (compIdx m) - targetTotal t (compIdx m) then
        redistribute m (sumPriceQty (compIdx m) - targetTotal t (compIdx m))
          (sortAsc (mkMargins (compIdx m)))
      else m) = M2 at hM2 ⊢
    split
    · rw [correct_map_core, step5_map_core, hM2]
    · rw [step5_map_core, hM2]

theorem step1_eq_of_core_eq {x y : PLine} (h : core x = core y) : step1 x = step1 y := by
  cases x
  cases y
  simp only [core, Prod.mk.injEq] at h
  obtain ⟨h1, h2, h3⟩ := h
  subst h1
  subst h2
  subst h3
  rfl

theorem map_step1_eq_of_map_core_eq :
    ∀ {l₁ l₂ : List PLine}, l₁.map core = l₂.map core → l₁.map step1 = l₂.map step1 := by
  intro l₁
  induction l₁ with
  | nil =>
    intro l₂ h
    cases l₂ with
    | nil => rfl
    | cons y ys => simp at h
  | cons x xs ih =>
    intro l₂ h
    cases l₂ with
    | nil => simp at h
    | cons y ys =>
      simp only [List.map_cons, List.cons.injEq] at h ⊢
      exact ⟨step1_eq_of_core_eq h.1, ih h.2⟩

/-- Step 5 does nothing to freshly initialised prices: the initial undercut
is already strict. -/
theorem step5_map_step1 (l : List PLine) : step5 (l.map step1) = l.map step1 := by
  unfold step5
  rw [List.map_map]
  refine List.map_congr_left ?_
  intro a _
  show (if 0 < (step1 a).comp ∧ (step1 a).comp ≤ (step1 a).price
    then { step1 a with price := round2 ((step1 a).comp - 1/100) } else step1 a) = step1 a
  rw [if_neg]
  rintro ⟨h1, h2⟩
  have hc : 0 < a.comp := h1
  have hp : (step1 a).price = round2 (a.comp - 1/100) := by
    show initPrice a.comp a.cost = _
    unfold initPrice
    rw [if_neg (not_le.mpr hc)]
  have := round2_undercut a.comp
  rw [hp] at h2
  have h2' : a.comp ≤ round2 (a.comp - 1/100) := h2
  linarith

/-- The price of a freshly initialised competitor row. -/
theorem initPrice_of_comp_pos {x : PLine} (hx : 0 < x.comp) :
    (step1 x).price = round2 (x.comp - 1/100) := by
  show initPrice x.comp x.cost = _
  unfold initPrice
  rw [if_neg (not_le.mpr hx)]

/-- When the aggregate residual is negative, the correction loop is the
identity on freshly initialised competitor prices: each candidate price is
already at its `competitor - 0.01` ceiling. -/
theorem correct_id_of_neg {m : List PLine} {rc₀ : ℚ} (hrc : rc₀ < 0)
    (hinit : ∀ x ∈ m, 0 < x.comp → x.price = round2 (x.comp - 1/100)) :
    ∀ items : List CorrItem,
      (∀ it ∈ items, ∃ x, m.get? it.idx = some x ∧ it.compP = x.comp ∧
        it.cost = x.cost ∧ it.price = x.price ∧ it.qty = x.qty ∧ 0 < it.qty ∧ 0 < x.comp) →
      correct m rc₀ items = m := by
  intro items
  induction items with
  | nil =>
    intro _
    rw [correct]
  | cons it rest ih =>
    intro hprops
    rw [correct]
    split
    · rfl
    · dsimp only
      obtain ⟨x, hget, hcompP, hcost, hprice, hqty, hqpos, hcpos⟩ :=
        hprops it (List.mem_cons_self _ _)
      have hx : x.price = round2 (x.comp - 1/100) := hinit x (List.get?_mem hget) hcpos
      have hpgrid : it.price = round2 (it.compP - 1/100) := by rw [hcompP, hprice, hx]
      have hnew : corrValue it rc₀ = it.price := by
        unfold corrValue
        dsimp only
        rw [if_pos (show (0:ℚ) < it.compP by rw [hcompP]; exact hcpos)]
        have hpu : rc₀ / it.qty < 0 := div_neg_of_neg_of_pos hrc hqpos
        have h1 : it.price ≤ round2 (it.price - rc₀ / it.qty) := by
          conv_lhs => rw [hpgrid]
          exact round2_le_round2_of_ge (by rw [← hpgrid]; linarith)
        have h2 : it.price ≤ max (round2 (it.price - rc₀ / it.qty)) it.cost :=
          le_trans h1 (le_max_left _ _)
        rw [← hpgrid]
        exact min_eq_right h2
      rw [hnew, hprice, updPrice_self hget]
      rw [show rc₀ - (x.price - x.price) * it.qty = rc₀ by ring]
      exact ih (fun it' hit' => hprops it' (List.mem_cons_of_mem _ hit'))

/-- Steps 2-6 never price a competitor row at or above its competitor. -/
theorem pricePasses_undercut (t : ℚ) (m : List PLine) :
    ∀ y ∈ pricePasses t m, 0 < y.comp → y.price < y.comp := by
  unfold pricePasses
  dsimp only
  split
  · exact step5_undercut _
  · generalize (if 0 < sumPriceQty (compIdx m) - targetTotal t (compIdx m) then
        redistribute m (sumPriceQty (compIdx m) - targetTotal t (compIdx m))
          (sortAsc (mkMargins (compIdx m)))
      else m) = M2
    split
    · refine correct_forall ?_ _ _ _ (step5_undercut _) (fun it hit => corrItems_snap hit)
      intro it x rc _ hcomp _ hpos _
      show corrValue it rc < x.comp
      unfold corrValue
      dsimp only
      rw [if_pos (show (0:ℚ) < it.compP by rw [hcomp]; exact hpos)]
      calc min (max (round2 (it.price - rc / it.qty)) it.cost) (round2 (it.compP - 1/100))
          ≤ round2 (it.compP - 1/100) := min_le_right _ _
        _ < it.compP := round2_undercut _
        _ = x.comp := hcomp
    · exact step5_undercut _

end KP

namespace KP

/-! The claim theorems. -/

/-- C1: after `calculate_prices`, every line whose competitor price is
strictly positive has `our_price` strictly below that competitor price,
whatever the target discount, the input lines, and whatever the
initial-pricing, redistribution, safety-clamp and correction passes did. -/
theorem calculate_prices_undercuts_competitor (t : ℚ) (l : List PLine) :
    ∀ y ∈ calculate_prices t l, 0 < y.comp → y.price < y.comp := by
  unfold calculate_prices
  exact pricePasses_undercut t (l.map step1)

/-- C1 witness: a concrete run.  One line with competitor price 100, no
cost, qty 1: the final price is 99.99 < 100. -/
theorem calculate_prices_undercuts_competitor_witness :
    (⟨100, 0, 1, 9999/100⟩ : PLine) ∈ calculate_prices (1/10) [⟨100, 0, 1, 0⟩] ∧
    (0:ℚ) < 100 ∧ (9999/100 : ℚ) < 100 :=
  ⟨by decide, by norm_num,
   calculate_prices_undercuts_competitor (1/10) [⟨100, 0, 1, 0⟩]
     ⟨100, 0, 1, 9999/100⟩ (by decide) (by norm_num)⟩

/-- C3: when the initial undercut prices already meet or exceed the
aggregate target (`delta = our_total - target_total ≤ 0` over the
competitor subset), `calculate_prices` returns exactly the initially priced
rows: no pass (including the final correction pass, which runs whenever the
residual to the target exceeds 0.5 in absolute value) changes any price. -/
theorem calculate_prices_delta_nonpos_frame (t : ℚ) (l : List PLine)
    (h : sumPriceQty (compIdx (l.map step1)) ≤ targetTotal t (compIdx (l.map step1))) :
    calculate_prices t l = l.map step1 := by
  unfold calculate_prices pricePasses
  dsimp only
  split
  · exact step5_map_step1 l
  · have hdelta : ¬(0 < sumPriceQty (compIdx (l.map step1)) -
        targetTotal t (compIdx (l.map step1))) := not_lt.mpr (by linarith)
    rw [if_neg hdelta, step5_map_step1 l]
    split
    · rename_i hne habs
      have hrc : sumPriceQty (compIdx (l.map step1)) -
          targetTotal t (compIdx (l.map step1)) < 0 := by
        rcases lt_or_eq_of_le (sub_nonpos.mpr h) with hlt | heq
        · exact hlt
        · exact absurd habs (by rw [heq]; norm_num)
      refine correct_id_of_neg hrc ?_ _ (fun it hit => corrItems_snap_full hit)
      intro x hx hpos
      rcases List.mem_map.mp hx with ⟨z, hz, rfl⟩
      exact initPrice_of_comp_pos hpos
    · rfl

/-- C3 witness: one line with competitor price 100, qty 1, zero target
discount: the initial undercut total 99.99 is already below the target 100,
and the output equals the initially priced rows. -/
theorem calculate_prices_delta_nonpos_frame_witness :
    sumPriceQty (compIdx (([⟨100, 0, 1, 0⟩] : List PLine).map step1)) ≤
      targetTotal 0 (compIdx (([⟨100, 0, 1, 0⟩] : List PLine).map step1)) ∧
    calculate_prices 0 [⟨100, 0, 1, 0⟩] = ([⟨100, 0, 1, 0⟩] : List PLine).map step1 :=
  ⟨by decide, calculate_prices_delta_nonpos_frame 0 [⟨100, 0, 1, 0⟩] (by decide)⟩

/-- C5 counterexample: a line with competitor price 0.001 (positive but
below 0.01) ends with `our_price = round2(0.001 - 0.01) = -0.01 < 0`, so the
claim "our_price ≥ 0 for every line, including competitor prices below
0.01" is false on the code. -/
theorem calculate_prices_nonneg_counterexample :
    (⟨1/1000, 0, 1, -1/100⟩ : PLine) ∈ calculate_prices (1/10) [⟨1/1000, 0, 1, 0⟩] ∧
    ¬ (0 ≤ ((-1)/100 : ℚ)) :=
  ⟨by decide, by norm_num⟩

/-- C5 amended: `our_price ≥ 0` holds for every output line provided each
input line has non-negative cost and a competitor price that is either not
positive or at least 0.01 (the lines the counterexample excludes). -/
theorem calculate_prices_nonneg_amended (t : ℚ) (l : List PLine)
    (hl : ∀ x ∈ l, 0 ≤ x.cost ∧ (x.comp ≤ 0 ∨ 1/100 ≤ x.comp)) :
    ∀ y ∈ calculate_prices t l, 0 ≤ y.price := by
  have key : ∀ y ∈ calculate_prices t l,
      ((0 ≤ y.cost ∧ (y.comp ≤ 0 ∨ 1/100 ≤ y.comp)) ∧ 0 ≤ y.price) := by
    unfold calculate_prices
    refine pricePasses_forall ?_ ?_ ?_ t (l.map step1) ?_
    · rintro x pr ⟨hg, _⟩
      exact ⟨hg, round2_nonneg (le_trans hg.1 (le_max_right _ _))⟩
    · rintro x ⟨hg, _⟩ hpos _
      refine ⟨hg, ?_⟩
      show 0 ≤ round2 (x.comp - 1/100)
      rcases hg.2 with hc | hc
      · exact absurd hpos (not_lt.mpr hc)
      · exact round2_nonneg (by linarith)
    · rintro it x rc ⟨hg, _⟩ hcomp hcost hpos
      refine ⟨hg, ?_⟩
      show 0 ≤ corrValue it rc
      unfold corrValue
      dsimp only
      rw [if_pos (show (0:ℚ) < it.compP by rw [hcomp]; exact hpos)]
      refine le_min ?_ ?_
      · exact le_trans (hcost ▸ hg.1) (le_max_right _ _)
      · refine round2_nonneg ?_
        rcases hg.2 with hc | hc
        · exact absurd hpos (not_lt.mpr hc)
        · rw [hcomp]
          linarith
    · intro y hy
      rcases List.mem_map.mp hy with ⟨x, hx, rfl⟩
      obtain ⟨hc, hcomp⟩ := hl x hx
      refine ⟨⟨hc, hcomp⟩, ?_⟩
      show 0 ≤ initPrice x.comp x.cost
      unfold initPrice
      split
      · split
        · exact round2_nonneg (mul_nonneg hc (by norm_num))
        · exact le_rfl
      · rename_i hle
        rcases hcomp with hc2 | hc2
        · exact absurd hc2 hle
        · exact round2_nonneg (by linarith)
  intro y hy
  exact (key y hy).2

/-- C5 amended witness: a concrete run on a line with cost 50 and
competitor price 100 ends at price 99.90 ≥ 0. -/
theorem calculate_prices_nonneg_amended_witness :
    (∀ x ∈ [(⟨100, 50, 2, 0⟩ : PLine)], 0 ≤ x.cost ∧ (x.comp ≤ 0 ∨ 1/100 ≤ x.comp)) ∧
    (⟨100, 50, 2, 999/10⟩ : PLine) ∈ calculate_prices (1/10) [⟨100, 50, 2, 0⟩] ∧
    (0:ℚ) ≤ 999/10 :=
  ⟨by decide, by decide,
   calculate_prices_nonneg_amended (1/10) [⟨100, 50, 2, 0⟩] (by decide)
     ⟨100, 50, 2, 999/10⟩ (by decide)⟩

/-- C6: `calculate_prices` is idempotent on its own output — re-running it
with the same target discount (the fallback markup is the built-in 30 %)
reproduces the very same rows, hence the same `our_price` everywhere, with
no rounding drift. -/
theorem calculate_prices_idempotent (t : ℚ) (l : List PLine) :
    calculate_prices t (calculate_prices t l) = calculate_prices t l := by
  unfold calculate_prices
  have h2 : (pricePasses t (l.map step1)).map step1 = (l.map step1).map step1 :=
    map_step1_eq_of_map_core_eq (pricePasses_map_core t (l.map step1))
  rw [h2, List.map_map]
  have h3 : step1 ∘ step1 = step1 := funext fun _ => rfl
  rw [h3]

/-- C8: the initial pricing of `calculate_prices` is `competitor - 0.01`
(rounded) when a competitor exists, else `cost × (1 + 30/100)` (rounded)
when the cost is positive, else 0; and a line with no competitor and cost 40
comes out of the whole pass priced at 52.00. -/
theorem initial_pricing_spec :
    (∀ x : PLine,
      (0 < x.comp → (step1 x).price = round2 (x.comp - 1/100)) ∧
      (x.comp ≤ 0 → 0 < x.cost → (step1 x).price = round2 (x.cost * (1 + 30/100))) ∧
      (x.comp ≤ 0 → x.cost ≤ 0 → (step1 x).price = 0)) ∧
    (∀ t : ℚ, calculate_prices t [⟨0, 40, 1, 0⟩] = [⟨0, 40, 1, 52⟩]) := by
  constructor
  · intro x
    refine ⟨?_, ?_, ?_⟩
    · intro h
      exact initPrice_of_comp_pos h
    · intro h hc
      show initPrice x.comp x.cost = _
      unfold initPrice
      rw [if_pos h, if_pos hc]
      norm_num
    · intro h hc
      show initPrice x.comp x.cost = _
      unfold initPrice
      rw [if_pos h, if_neg (not_lt.mpr hc)]
  · intro t
    rfl

/-- C8 witness: the three branches at concrete lines. -/
theorem initial_pricing_spec_witness :
    (0:ℚ) < 100 ∧ (step1 ⟨100, 50, 1, 0⟩).price = round2 (100 - 1/100) ∧
    (step1 ⟨0, 40, 1, 0⟩).price = round2 (40 * (1 + 30/100)) ∧
    (step1 ⟨0, 0, 1, 0⟩).price = 0 :=
  ⟨by norm_num, (initial_pricing_spec.1 ⟨100, 50, 1, 0⟩).1 (by norm_num),
   (initial_pricing_spec.1 ⟨0, 40, 1, 0⟩).2.1 (by norm_num) (by norm_num),
   (initial_pricing_spec.1 ⟨0, 0, 1, 0⟩).2.2 (by norm_num) (by norm_num)⟩

theorem mismatchQ_eq (a b : Option ℚ) (tol : ℚ) :
    mismatchQ a b tol = !agreeIfBothQ a b tol := by
  cases a with
  | none => cases b <;> rfl
  | some x =>
    cases b with
    | none => rfl
    | some y =>
      show decide (tol < |x - y|) = !decide (|x - y| ≤ tol)
      rw [← decide_not]
      exact decide_eq_decide.mpr not_le.symm

theorem mismatchCount_eq (a b : Option ℕ) :
    mismatchCount a b = !agreeIfBothCount a b := by
  cases a with
  | none => cases b <;> rfl
  | some x =>
    cases b with
    | none => rfl
    | some y =>
      show decide (x ≠ y) = !decide (x = y)
      by_cases h : x = y
      · subst h
        simp
      · simp [h]

theorem bool_chain (h1 h2 a b c d : Bool) :
    (if (h1 != h2) = true then false
     else if (!a) = true then false
     else if (!b) = true then false
     else if (!c) = true then false
     else if (!d) = true then false else true) =
    ((h1 == h2) && a && b && c && d) := by
  cases h1 <;> cases h2 <;> cases a <;> cases b <;> cases c <;> cases d <;> rfl

/-- C2 counterexample: the code judges a weight-only packaging and a
volume-only packaging compatible (both sides "have" a weight-or-volume
datum and no single attribute is present on both sides), while the claimed
rule — one side specifying an attribute the other omits makes the pair
incompatible — rejects exactly this pair. -/
theorem packaging_compatible_claim_counterexample :
    packaging_compatible { weight_g := some 400 } { volume_ml := some 400 } = true ∧
    packaging_compatible_spec { weight_g := some 400 } { volume_ml := some 400 } = false := by
  refine ⟨by decide, by decide⟩

/-- C2 amended: `packaging_compatible` agrees everywhere with the predicate
"the presence of a weight-or-volume datum must coincide on the two sides,
and every attribute present on both sides must agree within tolerance
(±1 for weight and volume, ±0.1 for fat %, exact for count); attributes
present on only one side impose no further constraint". -/
theorem packaging_compatible_amended_correct (p q : Packaging) :
    packaging_compatible p q = packaging_compatible_amended p q := by
  unfold packaging_compatible packaging_compatible_amended
  dsimp only
  rw [mismatchQ_eq, mismatchQ_eq, mismatchQ_eq, mismatchCount_eq]
  exact bool_chain _ _ _ _ _ _

/-- C4: Scenario B on the code.  For catalog cost 50.50 with packaging tag
"800г" and requested unit "кг", `adjust_cost_for_unit` rescales by 1000/800
and returns 63.12 with a non-empty note — not the 63.13 the claim (and the
function's own docstring) states: `round(63.125, 2)` rounds the exact tie
to the even cent, 63.12. -/
theorem adjust_cost_for_unit_scenario_b :
    (adjust_cost_for_unit (101/2) ("800г") ("кг")).1 = 6312/100 ∧
    (adjust_cost_for_unit (101/2) ("800г") ("кг")).2 ≠ "" ∧
    ((6312:ℚ)/100 ≠ 6313/100) := by decide

/-- C7: the quantity sanitation of `match_products` — strictly above
1 000 000 divide by 1000, strictly above 100 000 and up to 1 000 000 divide
by 100, otherwise unchanged; both original and corrected values are
recorded in the note, and 1 500 000 becomes 1500. -/
theorem sanitize_qty_spec :
    (∀ q : ℚ,
      (1000000 < q → sanitizeQty q = (q / 1000, some (q, q / 1000))) ∧
      (100000 < q → q ≤ 1000000 → sanitizeQty q = (q / 100, some (q, q / 100))) ∧
      (q ≤ 100000 → sanitizeQty q = (q, none))) ∧
    sanitizeQty 1500000 = (1500, some (1500000, 1500)) := by
  constructor
  · intro q
    refine ⟨?_, ?_, ?_⟩
    · intro h
      have h0 : (100000:ℚ) < q := by linarith
      unfold sanitizeQty
      rw [if_pos h0]
      dsimp only
      rw [if_pos h]
    · intro h1 h2
      unfold sanitizeQty
      rw [if_pos h1]
      dsimp only
      rw [if_neg (not_lt.mpr h2)]
    · intro h
      unfold sanitizeQty
      rw [if_neg (not_lt.mpr h)]
  · decide

/-- C7 witness: the three sanitation regimes at concrete quantities. -/
theorem sanitize_qty_spec_witness :
    sanitizeQty 1500000 = (1500, some (1500000, 1500)) ∧
    sanitizeQty 500000 = (5000, some (500000, 5000)) ∧
    sanitizeQty 99 = (99, none) := by
  refine ⟨?_, ?_, ?_⟩
  · have h := (sanitize_qty_spec.1 1500000).1 (by norm_num)
    rw [h]
    decide
  · have h := (sanitize_qty_spec.1 500000).2.1 (by norm_num) (by norm_num)
    rw [h]
    decide
  · exact (sanitize_qty_spec.1 99).2.2 (by norm_num)

/-- C9: the matching entry point performs no emptiness check.  An empty
request list yields `[]` silently; `find_best_match` on an empty candidate
list returns `(none, 0, "")`; and with both catalogs empty every request
line degrades to cost 0, competitor price 0, no competitor flag and empty
match provenance — no error is raised or reported anywhere. -/
theorem match_products_empty_inputs_silent :
    (∀ (sim : String → String → ℕ) (cost_df : List CostRow) (competitor_df : List CompRow),
      match_products sim [] cost_df competitor_df = []) ∧
    (∀ (α : Type) (sim : String → String → ℕ) (getName getTara : α → String) (tname : String),
      find_best_match sim getName getTara tname [] = (none, 0, "")) ∧
    (∀ (sim : String → String → ℕ) (idx : ℕ) (r : RequestLine),
      (processLine sim [] [] idx r).cost = 0 ∧
      (processLine sim [] [] idx r).competitor_price = 0 ∧
      (processLine sim [] [] idx r).has_competitor = false ∧
      (processLine sim [] [] idx r).match_info = "") :=
  ⟨fun _ _ _ => rfl, fun _ _ _ _ _ => rfl, fun _ _ _ => ⟨rfl, rfl, rfl, rfl⟩⟩

/-- C10: a matched competitor price is used only when it lies strictly
between 0 and 100 000.  When the best competitor match carries a price
≤ 0 or ≥ 100 000, the emitted line has competitor price 0, no competitor
flag, and empty match provenance — exactly as if no match existed. -/
theorem competitor_price_sanity_cap (sim : String → String → ℕ)
    (cost_df : List CostRow) (competitor_df : List CompRow) (idx : ℕ) (r : RequestLine)
    (row : CompRow)
    (hfind : (find_best_match sim CompRow.name (fun _ => "") (effName idx r)
      competitor_df).1 = some row)
    (hout : row.price ≤ 0 ∨ 100000 ≤ row.price) :
    (processLine sim cost_df competitor_df idx r).competitor_price = 0 ∧
    (processLine sim cost_df competitor_df idx r).has_competitor = false ∧
    (processLine sim cost_df competitor_df idx r).match_info = "" := by
  have hcond : ¬(0 < row.price ∧ row.price < 100000) := by
    rcases hout with h | h
    · rintro ⟨h1, _⟩
      linarith
    · rintro ⟨_, h2⟩
      linarith
  unfold processLine
  dsimp only
  rw [hfind]
  dsimp only
  rw [if_neg hcond]
  exact ⟨rfl, rfl, rfl⟩

/-- C10 witness: with a scorer accepting everything, a request "молоко"
against a single competitor row priced 200 000 ends with competitor price 0
and no competitor flag. -/
theorem competitor_price_sanity_cap_witness :
    (find_best_match (fun _ _ => 95) CompRow.name (fun _ => "")
      (effName 0 ⟨"молоко", "", "шт", 1⟩) [⟨"молоко", 200000⟩]).1 =
        some ⟨"молоко", 200000⟩ ∧
    ((100000:ℚ) ≤ 200000) ∧
    (processLine (fun _ _ => 95) [] [⟨"молоко", 200000⟩] 0
      ⟨"молоко", "", "шт", 1⟩).competitor_price = 0 ∧
    (processLine (fun _ _ => 95) [] [⟨"молоко", 200000⟩] 0
      ⟨"молоко", "", "шт", 1⟩).has_competitor = false := by
  refine ⟨by decide, by norm_num, ?_, ?_⟩
  · exact (competitor_price_sanity_cap (fun _ _ => 95) [] [⟨"молоко", 200000⟩] 0
      ⟨"молоко", "", "шт", 1⟩ ⟨"молоко", 200000⟩ (by decide) (Or.inr (by norm_num))).1
  · exact (competitor_price_sanity_cap (fun _ _ => 95) [] [⟨"молоко", 200000⟩] 0
      ⟨"молоко", "", "шт", 1⟩ ⟨"молоко", 200000⟩ (by decide) (Or.inr (by norm_num))).2.1

end KP
